import Mathlib

/-!
Verification of the v2h.py Verilog-to-HTML converter against its specification.
The program is shallowly embedded: Python strings become lists of characters,
Python string methods become executable Lean functions with matching semantics,
the file handle becomes a list of remaining lines, and the filesystem becomes an
association list from path to contents.
-/

set_option maxRecDepth 100000

namespace V2H

/-- Characters of a Python string; all string data in the embedding is a list of characters. -/
abbrev Str := List Char

/-- Coerce a Lean string literal to its character list. -/
def str (x : String) : Str := x.data

/-- Python whitespace characters, the set used by str.strip and str.split with no arguments. -/
def isWsChar (c : Char) : Bool :=
  c == ' ' || c == '\t' || c == '\n' || c == '\r' || c == '\x0b' || c == '\x0c'

/-- Python str.lstrip with a character-set predicate: drop leading characters in the set. -/
def pyLstripP (p : Char → Bool) (l : Str) : Str := l.dropWhile p

/-- Python str.rstrip with a character-set predicate: drop trailing characters in the set. -/
def pyRstripP (p : Char → Bool) (l : Str) : Str := (l.reverse.dropWhile p).reverse

/-- Python str.strip with a character-set predicate: drop from both ends. -/
def pyStripP (p : Char → Bool) (l : Str) : Str := pyRstripP p (pyLstripP p l)

/-- Python str.strip with no argument: strip whitespace from both ends. -/
def pyStripWs (l : Str) : Str := pyStripP isWsChar l

/-- Scanning pass of Python str.replace for a non-empty pattern: replace
non-overlapping occurrences left to right. The fuel argument bounds recursion;
callers pass the length of the scanned list, which always suffices. -/
def pyReplaceAux (old new : Str) : Nat → Str → Str
  | 0, t => t
  | _, [] => []
  | fuel + 1, c :: cs =>
    if old.isPrefixOf (c :: cs) then new ++ pyReplaceAux old new fuel (cs.drop (old.length - 1))
    else c :: pyReplaceAux old new fuel cs

/-- Python str.replace. An empty pattern inserts the replacement at every position,
matching Python. -/
def pyReplace (t old new : Str) : Str :=
  if old.isEmpty then new ++ t.foldr (fun c acc => c :: (new ++ acc)) []
  else pyReplaceAux old new t.length t

/-- Python str.split with no arguments: split on runs of whitespace, dropping empties.
Fueled for structural recursion; the length of the input suffices. -/
def pySplitAux : Nat → Str → List Str
  | 0, _ => []
  | _, [] => []
  | fuel + 1, c :: cs =>
    if isWsChar c then pySplitAux fuel cs
    else (c :: cs.takeWhile (fun x => !isWsChar x)) :: pySplitAux fuel (cs.dropWhile (fun x => !isWsChar x))

/-- Python str.split with no arguments. -/
def pySplit (l : Str) : List Str := pySplitAux l.length l

/-- Split off the first physical line of a document, keeping its terminating newline. -/
def breakNl : Str → Str × Str
  | [] => ([], [])
  | c :: cs =>
    if c == '\n' then (['\n'], cs)
    else
      let p := breakNl cs
      (c :: p.1, p.2)

/-- Fueled worker for pyReadlines. -/
def pyReadlinesAux : Nat → Str → List Str
  | 0, _ => []
  | _, [] => []
  | fuel + 1, t => (breakNl t).1 :: pyReadlinesAux fuel (breakNl t).2

/-- Python file.readlines view of a document: the list of physical lines, each keeping
its newline; a final fragment without a newline is also a line. readline past the end
returns the empty string, modelled by the empty list. -/
def pyReadlines (t : Str) : List Str := pyReadlinesAux t.length t

/-- Python negative slicing fn[-n:]: the last n characters (the whole string when shorter). -/
def lastN (n : Nat) (l : Str) : Str := l.drop (l.length - n)

/-- Page header template of v2h.py with its three format placeholders spliced in:
{0} the meta description, {1} the title, {2} the source filename. -/
def headerFmt (meta title src : Str) : Str :=
  str "<html>\n<head>\n<link rel=\"shortcut icon\" href=\"./favicon.ico\">\n<link rel=\"stylesheet\" type=\"text/css\" href=\"./style.css\">\n<meta name=\"viewport\" content=\"width=device-width, initial-scale=1\">\n<meta name=\"description\" content=\"" ++ meta ++
    str "\">\n<title>" ++ title ++
    str "</title>\n</head>\n<body>\n\n<p class=\"inline bordered\"><b><a href=\"./" ++ src ++
    str "\">Source</a></b></p>\n<p class=\"inline bordered\"><b><a href=\"./legal.html\">License</a></b></p>\n<p class=\"inline bordered\"><b><a href=\"./index.html\">Index</a></b></p>\n\n"

/-- Page footer of v2h.py. -/
def footerStr : Str :=
  str "<hr>\n<p><a href=\"./index.html\">Back to FPGA Design Elements</a>\n<center><a href=\"http://fpgacpu.ca/\">fpgacpu.ca</a></center>\n</body>\n</html>\n\n"

/-- v2h.base_filename: strip Verilog filename extensions. Python str.replace removes
every occurrence of ".vh" and then of ".v", anywhere in the name. -/
def base_filename (filename : Str) : Str :=
  pyReplace (pyReplace filename (str ".vh") []) (str ".v") []

/-- v2h.output_filename: input Verilog filename to output HTML filename. -/
def output_filename (filename : Str) : Str := base_filename filename ++ str ".html"

/-- v2h.filename_to_title: the Verilog filename as a page title. -/
def filename_to_title (filename : Str) : Str :=
  pyReplace (base_filename filename) (str "_") (str " ")

/-- v2h.is_verilog_filename, as invoked from the driver on each argument. -/
def is_verilog_filename (filename : Str) : Bool :=
  lastN 2 filename == str ".v" || lastN 3 filename == str ".vh"

/-- v2h.is_comment: line.startswith("//"). -/
def is_comment (line : Str) : Bool := (str "//").isPrefixOf line

/-- v2h.is_header: line.startswith("//#"). -/
def is_header (line : Str) : Bool := (str "//#").isPrefixOf line

/-- v2h.is_blank: line.strip(" \t") == "\n". -/
def is_blank (line : Str) : Bool := pyStripP (fun c => c == ' ' || c == '\t') line == str "\n"

/-- v2h.is_eof: readline only ever returns an empty line at EOF. -/
def is_eof (line : Str) : Bool := line.isEmpty

/-- Filesystem model: an association list from path to contents. Paths are stored
normalized; a leading "./" denotes the working directory, so lookups strip it. -/
structure FS where
  files : List (Str × Str)
deriving DecidableEq

/-- Path normalization: "./name" and "name" denote the same file in the working directory. -/
def normPath (p : Str) : Str := if (str "./").isPrefixOf p then p.drop 2 else p

/-- Read a file, returning none when it does not exist (Python open raising OSError). -/
def fsRead (fs : FS) (p : Str) : Option Str := fs.files.lookup (normPath p)

/-- os.path.isfile on the modelled filesystem. -/
def isfile (fs : FS) (p : Str) : Bool := (fsRead fs p).isSome

/-- Write a file, replacing any previous contents at that path. -/
def fsWrite (fs : FS) (p v : Str) : FS := ⟨(normPath p, v) :: fs.files⟩

/-- First loop of process_first_paragraph: skip leading header-comment and blank lines. -/
def skipLoop : Str → List Str → Str × List Str
  | line, [] =>
    if (is_header line || is_blank line) && !is_eof line then ([], []) else (line, [])
  | line, l :: rest =>
    if (is_header line || is_blank line) && !is_eof line then skipLoop l rest
    else (line, l :: rest)

/-- Second loop of process_first_paragraph: accumulate the first comment paragraph,
stripping leading slashes from each line. -/
def paraLoop : Str → List Str → Str → Str × Str × List Str
  | line, [], acc =>
    if is_comment line && !is_blank line && !is_eof line then
      (acc ++ pyLstripP (fun c => c == '/') line, [], [])
    else (acc, line, [])
  | line, l :: rest, acc =>
    if is_comment line && !is_blank line && !is_eof line then
      paraLoop l rest (acc ++ pyLstripP (fun c => c == '/') line)
    else (acc, line, l :: rest)

/-- v2h.process_first_paragraph: skip the header/blank prefix, gather the first comment
paragraph, strip markers and newlines, then rewind the file with f.seek(0). Takes the
current line, the remaining lines, and the full line list; returns the line variable at
exit, the rewound handle (the full list), and the extracted paragraph. -/
def process_first_paragraph (line : Str) (rem full : List Str) : Str × List Str × Str :=
  let p1 := skipLoop line rem
  let p2 := paraLoop p1.1 p1.2 []
  (p2.2.1, full, pyStripWs (pyReplace p2.1 (str "\n") []))

/-- Loop of process_comments: gather comment and blank lines, stripping leading slashes. -/
def commentLoop : Str → List Str → Str → Str × Str × List Str
  | line, [], block =>
    if (is_comment line || is_blank line) && !is_eof line then
      (block ++ pyLstripP (fun c => c == '/') line, [], [])
    else (block, line, [])
  | line, l :: rest, block =>
    if (is_comment line || is_blank line) && !is_eof line then
      commentLoop l rest (block ++ pyLstripP (fun c => c == '/') line)
    else (block, line, l :: rest)

/-- v2h.process_comments: gather a comment/blank run, render it through the Markdown
transform md (an opaque parameter of the model), and append it plus a paragraph break.
Returns the new accumulated output, the next line, and the remaining lines. -/
def process_comments (md : Str → Str) (line : Str) (rem : List Str) (acc : Str) :
    Str × Str × List Str :=
  let r := commentLoop line rem []
  (acc ++ (md r.1 ++ str "\n\n"), r.2.1, r.2.2)

/-- Word cleanup inside add_file_links: word.replace building the candidate page name. -/
def word_cleanup (w : Str) : Str := pyReplace (pyReplace w (str "\"") []) (str ".vh") []

/-- Hyperlink markup emitted by add_file_links for a page filename and a word. -/
def linkFor (filename w : Str) : Str :=
  str "<a href=\"" ++ filename ++ str "\">" ++ w ++ str "</a>"

/-- Tokens considered by add_file_links: line.strip().split(). -/
def split_words (line : Str) : List Str := pySplit (pyStripWs line)

/-- v2h.add_file_links: for each whitespace token whose cleaned form names an existing
HTML page, globally replace that form in the line with hyperlink markup. -/
def add_file_links (fs : FS) (line : Str) : Str :=
  (split_words line).foldl
    (fun ln w =>
      let w2 := word_cleanup w
      let filename := str "./" ++ w2 ++ str ".html"
      if isfile fs filename then pyReplace ln w2 (linkFor filename w2) else ln)
    line

/-- Loop of process_code: gather raw lines until a comment line or EOF. -/
def codeLoop : Str → List Str → List Str → List Str × Str × List Str
  | line, [], block =>
    if !is_comment line && !is_eof line then (block ++ [line], [], [])
    else (block, line, [])
  | line, l :: rest, block =>
    if !is_comment line && !is_eof line then codeLoop l rest (block ++ [line])
    else (block, line, l :: rest)

/-- Trailing-blank trim of process_code. Python indexes code_block[-1], which faults on
an empty list; every call reachable from the driver passes a non-empty block (spec_C6),
so the none branch is unreachable there. -/
def trim_block (block : List Str) : List Str :=
  match block.getLast? with
  | none => block
  | some last => if is_blank last then block.dropLast else block

/-- v2h.process_code: gather code lines up to the next comment or EOF, trim one trailing
blank line, rewrite links, and wrap the lines in a pre block. -/
def process_code (fs : FS) (line : Str) (rem : List Str) (acc : Str) :
    Str × Str × List Str :=
  let r := codeLoop line rem []
  let block := trim_block r.1
  (block.foldl (fun a l => a ++ add_file_links fs l) (acc ++ str "<pre>\n") ++ str "</pre>\n\n",
    r.2.1, r.2.2)

/-- Readline from a position in the file: the next line and the remaining lines;
at EOF the empty line is returned. -/
def readlineFrom (ls : List Str) : Str × List Str :=
  match ls with
  | [] => ([], [])
  | l :: r => (l, r)

/-- Entry of the metadata pass as the driver performs it: read the first line with
readline, then run process_first_paragraph on it with the rest of the file. -/
def first_paragraph_of (lines : List Str) : Str × List Str × Str :=
  process_first_paragraph (readlineFrom lines).1 (readlineFrom lines).2 lines

/-- Concrete page prefix rendered for the document "code_line\n\n// comment\n" under
file name f.v and an empty output directory: the header followed by the code block.
The code line appears twice because process_first_paragraph rewinds the file but
returns the already-read first line, which the main loop then processes again. -/
def c5_page_head : Str :=
  str "<html>\n<head>\n<link rel=\"shortcut icon\" href=\"./favicon.ico\">\n<link rel=\"stylesheet\" type=\"text/css\" href=\"./style.css\">\n<meta name=\"viewport\" content=\"width=device-width, initial-scale=1\">\n<meta name=\"description\" content=\"\">\n<title>f</title>\n</head>\n<body>\n\n<p class=\"inline bordered\"><b><a href=\"./f.v\">Source</a></b></p>\n<p class=\"inline bordered\"><b><a href=\"./legal.html\">License</a></b></p>\n<p class=\"inline bordered\"><b><a href=\"./index.html\">Index</a></b></p>\n\n<pre>\ncode_line\ncode_line\n</pre>\n\n"

/-- Executable substring test: containsSub pat t is true when pat occurs inside t.
Written tail-recursively so that long concrete pages evaluate without deep nesting. -/
def containsSub (pat : Str) : Str → Bool
  | [] => pat.isEmpty
  | c :: rest => if pat.isPrefixOf (c :: rest) then true else containsSub pat rest


/-- Main segmentation and rendering loop of v2h.__main__ (source lines 160 to 167).
Fuel bounds the iteration count; render passes enough for the loop to reach EOF. -/
def mainLoop (md : Str → Str) (fs : FS) : Nat → Str → List Str → Str → Str
  | 0, _, _, acc => acc
  | fuel + 1, line, rem, acc =>
    if is_eof line then acc
    else if is_comment line then
      let r := process_comments md line rem acc
      mainLoop md fs fuel r.2.1 r.2.2 r.1
    else if !is_blank line then
      let r := process_code fs line rem acc
      mainLoop md fs fuel r.2.1 r.2.2 r.1
    else
      match rem with
      | [] => mainLoop md fs fuel [] [] acc
      | l :: rest => mainLoop md fs fuel l rest acc

/-- Per-file conversion pipeline of v2h.__main__: read the lines, extract the first
paragraph, rewind, render header, segments and footer. -/
def render (md : Str → Str) (fs : FS) (filename : Str) (doc : Str) : Str :=
  let lines := pyReadlines doc
  let first := first_paragraph_of lines
  let acc0 := headerFmt first.2.2 (filename_to_title filename) filename
  mainLoop md fs (lines.length + 2) first.1 first.2.1 acc0 ++ footerStr

/-- Final state of one batch invocation: filesystem, stdout lines, process exit code. -/
structure BatchResult where
  fs : FS
  printed : List Str
  exitCode : Nat
deriving DecidableEq

/-- Processing of one command-line argument in v2h.__main__. A non-Verilog name is
silently skipped; a missing pre-existing output file reads as empty; a missing input
file returns none, the uncaught OSError that aborts the batch. -/
def stepFile (md : Str → Str) (fs : FS) (filename : Str) : Option (FS × List Str) :=
  if !is_verilog_filename filename then some (fs, []) else
  let html := output_filename filename
  let existing := (fsRead fs html).getD []
  match fsRead fs filename with
  | none => none
  | some contents =>
    let out := render md fs filename contents
    if out == existing then some (fs, [])
    else some (fsWrite fs html out, [str "Updating " ++ html])

/-- Worker for runBatch: fold stepFile over the arguments, accumulating stdout. -/
def runBatchAux (md : Str → Str) : FS → List Str → List Str → BatchResult
  | fs, printed, [] => ⟨fs, printed ++ [str "Done."], 0⟩
  | fs, printed, f :: rest =>
    match stepFile md fs f with
    | none => ⟨fs, printed, 1⟩
    | some r => runBatchAux md r.1 (printed ++ r.2) rest

/-- v2h.__main__ over the command-line paths: process each file in order, print one
status line per updated file and a final completion marker; an unreadable input aborts
the whole run with exit code 1 (uncaught OSError), printing no completion marker. -/
def runBatch (md : Str → Str) (fs : FS) (args : List Str) : BatchResult :=
  runBatchAux md fs [] args

/-- Line kinds distinguished by the driver's branching. -/
inductive LineKind where
  | comment
  | blank
  | code
deriving DecidableEq

/-- Classification of a line as the driver performs it: is_comment first, then is_blank. -/
def classify (line : Str) : LineKind :=
  if is_comment line then .comment else if is_blank line then .blank else .code

/-- Modelled from the spec: the claimed Comment test that ignores leading whitespace
before the line-comment marker. The code's is_comment performs no such skipping. -/
def comment_spec_leadingWs (line : Str) : Bool :=
  (str "//").isPrefixOf (line.dropWhile (fun c => c == ' ' || c == '\t'))

/-!
Lemmas about the Python string primitives.
-/

theorem infix_of_cons_of_not_prefix {l : Str} {c : Char} {cs : Str}
    (h : l <:+: c :: cs) (hp : ¬ l <+: c :: cs) : l <:+: cs := by
  rcases List.infix_cons_iff.mp h with h1 | h2
  · exact absurd h1 hp
  · exact h2

theorem pyReplaceAux_creates_new {old new : Str} (hold : old ≠ []) :
    ∀ fuel t, t.length ≤ fuel → old <:+: t → new <:+: pyReplaceAux old new fuel t := by
  intro fuel
  induction fuel with
  | zero =>
    intro t hlen hinf
    interval_cases ht : t.length
    · rw [List.length_eq_zero] at ht
      subst ht
      exact absurd (List.eq_nil_of_infix_nil hinf) hold
  | succ n ih =>
    intro t hlen hinf
    match t with
    | [] => exact absurd (List.eq_nil_of_infix_nil hinf) hold
    | c :: cs =>
      by_cases hp : old.isPrefixOf (c :: cs)
      · rw [pyReplaceAux, if_pos hp]
        exact ⟨[], pyReplaceAux old new n (cs.drop (old.length - 1)), rfl⟩
      · rw [pyReplaceAux, if_neg hp]
        have hnp : ¬ old <+: c :: cs := fun hc => hp (List.isPrefixOf_iff_prefix.mpr hc)
        have htail : old <:+: cs := infix_of_cons_of_not_prefix hinf hnp
        have hrec := ih cs (Nat.le_of_succ_le_succ hlen) htail
        exact hrec.trans (List.infix_cons (List.infix_refl _))

theorem pyReplace_creates_new {old new t : Str} (hold : old ≠ [])
    (hinf : old <:+: t) : new <:+: pyReplace t old new := by
  rw [pyReplace, if_neg (by simpa [List.isEmpty_iff] using hold)]
  exact pyReplaceAux_creates_new hold t.length t (Nat.le_refl _) hinf

/-!
Replacement behavior of base_filename on well-behaved names: when the stem contains
no dot, only the final extension is removed.
-/

theorem str_dotv : str ".v" = ['.', 'v'] := rfl

theorem str_dotvh : str ".vh" = ['.', 'v', 'h'] := rfl

theorem pyReplaceAux_dotv_append {stem : Str} (hd : '.' ∉ stem) :
    ∀ fuel, stem.length + 2 ≤ fuel →
      pyReplaceAux (str ".v") [] fuel (stem ++ str ".v") = stem := by
  induction stem with
  | nil =>
    intro fuel hf
    match fuel, hf with
    | n + 2, _ =>
      show pyReplaceAux (str ".v") [] (n + 2) ('.' :: 'v' :: []) = []
      rw [pyReplaceAux, if_pos (by rw [str_dotv]; rfl)]
      match n with
      | 0 => rfl
      | m + 1 => rfl
  | cons c cs ih =>
    intro fuel hf
    have hc : ('.' == c) = false := by
      rw [beq_eq_false_iff_ne]
      intro h
      exact hd (by rw [h]; exact List.mem_cons_self c cs)
    have hcs : '.' ∉ cs := fun h => hd (List.mem_cons_of_mem c h)
    match fuel, hf with
    | n + 1, hf =>
      have hlen : cs.length + 2 ≤ n := by
        have h1 : (c :: cs).length = cs.length + 1 := rfl
        omega
      show pyReplaceAux (str ".v") [] (n + 1) (c :: (cs ++ str ".v")) = c :: cs
      rw [pyReplaceAux, if_neg (by rw [str_dotv]; simp [List.isPrefixOf, hc]),
        ih hcs n hlen]

theorem pyReplaceAux_dotvh_skips_dotv {stem : Str} (hd : '.' ∉ stem) :
    ∀ fuel, stem.length + 2 ≤ fuel →
      pyReplaceAux (str ".vh") [] fuel (stem ++ str ".v") = stem ++ str ".v" := by
  induction stem with
  | nil =>
    intro fuel hf
    match fuel, hf with
    | n + 2, _ =>
      show pyReplaceAux (str ".vh") [] (n + 2) ('.' :: 'v' :: []) = '.' :: 'v' :: []
      rw [pyReplaceAux, if_neg (by rw [str_dotvh]; simp [List.isPrefixOf])]
      rw [pyReplaceAux, if_neg (by rw [str_dotvh]; simp [List.isPrefixOf])]
      match n with
      | 0 => rfl
      | m + 1 => rfl
  | cons c cs ih =>
    intro fuel hf
    have hc : ('.' == c) = false := by
      rw [beq_eq_false_iff_ne]
      intro h
      exact hd (by rw [h]; exact List.mem_cons_self c cs)
    have hcs : '.' ∉ cs := fun h => hd (List.mem_cons_of_mem c h)
    match fuel, hf with
    | n + 1, hf =>
      have hlen : cs.length + 2 ≤ n := by
        have h1 : (c :: cs).length = cs.length + 1 := rfl
        omega
      show pyReplaceAux (str ".vh") [] (n + 1) (c :: (cs ++ str ".v")) =
        c :: (cs ++ str ".v")
      rw [pyReplaceAux, if_neg (by rw [str_dotvh]; simp [List.isPrefixOf, hc]),
        ih hcs n hlen]

theorem pyReplaceAux_dotvh_append {stem : Str} (hd : '.' ∉ stem) :
    ∀ fuel, stem.length + 3 ≤ fuel →
      pyReplaceAux (str ".vh") [] fuel (stem ++ str ".vh") = stem := by
  induction stem with
  | nil =>
    intro fuel hf
    match fuel, hf with
    | n + 3, _ =>
      show pyReplaceAux (str ".vh") [] (n + 3) ('.' :: 'v' :: 'h' :: []) = []
      rw [pyReplaceAux, if_pos (by rw [str_dotvh]; rfl)]
      match n with
      | 0 => rfl
      | m + 1 => rfl
  | cons c cs ih =>
    intro fuel hf
    have hc : ('.' == c) = false := by
      rw [beq_eq_false_iff_ne]
      intro h
      exact hd (by rw [h]; exact List.mem_cons_self c cs)
    have hcs : '.' ∉ cs := fun h => hd (List.mem_cons_of_mem c h)
    match fuel, hf with
    | n + 1, hf =>
      have hlen : cs.length + 3 ≤ n := by
        have h1 : (c :: cs).length = cs.length + 1 := rfl
        omega
      show pyReplaceAux (str ".vh") [] (n + 1) (c :: (cs ++ str ".vh")) = c :: cs
      rw [pyReplaceAux, if_neg (by rw [str_dotvh]; simp [List.isPrefixOf, hc]),
        ih hcs n hlen]

theorem pyReplaceAux_dotv_no_dot {stem : Str} (hd : '.' ∉ stem) :
    ∀ fuel, stem.length ≤ fuel → pyReplaceAux (str ".v") [] fuel stem = stem := by
  induction stem with
  | nil =>
    intro fuel _
    match fuel with
    | 0 => rfl
    | n + 1 => rfl
  | cons c cs ih =>
    intro fuel hf
    have hc : ('.' == c) = false := by
      rw [beq_eq_false_iff_ne]
      intro h
      exact hd (by rw [h]; exact List.mem_cons_self c cs)
    have hcs : '.' ∉ cs := fun h => hd (List.mem_cons_of_mem c h)
    match fuel, hf with
    | n + 1, hf =>
      have hlen : cs.length ≤ n := by
        have h1 : (c :: cs).length = cs.length + 1 := rfl
        omega
      show pyReplaceAux (str ".v") [] (n + 1) (c :: cs) = c :: cs
      rw [pyReplaceAux, if_neg (by rw [str_dotv]; simp [List.isPrefixOf, hc]),
        ih hcs n hlen]

theorem base_filename_dotv {stem : Str} (hd : '.' ∉ stem) :
    base_filename (stem ++ str ".v") = stem := by
  have h1 : pyReplace (stem ++ str ".v") (str ".vh") [] = stem ++ str ".v" := by
    rw [pyReplace, if_neg (by rw [str_dotvh]; simp)]
    exact pyReplaceAux_dotvh_skips_dotv hd _ (by simp [str_dotv])
  rw [base_filename, h1, pyReplace, if_neg (by rw [str_dotv]; simp)]
  exact pyReplaceAux_dotv_append hd _ (by simp [str_dotv])

theorem base_filename_dotvh {stem : Str} (hd : '.' ∉ stem) :
    base_filename (stem ++ str ".vh") = stem := by
  have h1 : pyReplace (stem ++ str ".vh") (str ".vh") [] = stem := by
    rw [pyReplace, if_neg (by rw [str_dotvh]; simp)]
    exact pyReplaceAux_dotvh_append hd _ (by simp [str_dotvh])
  rw [base_filename, h1, pyReplace, if_neg (by rw [str_dotv]; simp)]
  exact pyReplaceAux_dotv_no_dot hd _ (Nat.le_refl _)

/-!
Tokens produced by split_words are substrings of the line.
-/

theorem sub_of_mem_pySplitAux :
    ∀ fuel (l w : Str), w ∈ pySplitAux fuel l → w <:+: l := by
  intro fuel
  induction fuel with
  | zero =>
    intro l w h
    simp [pySplitAux] at h
  | succ n ih =>
    intro l w h
    match l with
    | [] => simp [pySplitAux] at h
    | c :: cs =>
      rw [pySplitAux] at h
      by_cases hc : isWsChar c
      · rw [if_pos hc] at h
        exact List.IsInfix.trans (ih cs w h) (List.infix_cons (List.infix_refl cs))
      · rw [if_neg hc] at h
        rcases List.mem_cons.mp h with h1 | h2
        · subst h1
          refine List.IsPrefix.isInfix ?_
          exact List.cons_prefix_cons.mpr ⟨rfl, List.takeWhile_prefix _⟩
        · have h3 : w <:+: cs.dropWhile (fun x => !isWsChar x) := ih _ w h2
          have h4 : cs.dropWhile (fun x => !isWsChar x) <:+ cs := List.dropWhile_suffix _
          exact List.IsInfix.trans h3
            (List.IsInfix.trans (List.IsSuffix.isInfix h4) (List.infix_cons (List.infix_refl cs)))

theorem pyRstripP_prefix_self (p : Char → Bool) (l : Str) : pyRstripP p l <+: l := by
  rw [pyRstripP]
  have h1 : l.reverse.dropWhile p <:+ l.reverse := List.dropWhile_suffix p
  have h2 : (l.reverse.dropWhile p).reverse.reverse <:+ l.reverse := by
    rwa [List.reverse_reverse]
  exact List.reverse_suffix.mp h2

theorem pyStripWs_sub_self (l : Str) : pyStripWs l <:+: l := by
  rw [pyStripWs, pyStripP]
  have h1 : pyRstripP isWsChar (pyLstripP isWsChar l) <+: pyLstripP isWsChar l :=
    pyRstripP_prefix_self _ _
  have h2 : pyLstripP isWsChar l <:+ l := List.dropWhile_suffix _
  exact List.IsInfix.trans (List.IsPrefix.isInfix h1) (List.IsSuffix.isInfix h2)

theorem sub_of_mem_split_words {w line : Str} (h : w ∈ split_words line) : w <:+: line := by
  rw [split_words, pySplit] at h
  exact List.IsInfix.trans (sub_of_mem_pySplitAux _ _ w h) (pyStripWs_sub_self line)

/-!
Behavior of add_file_links over a filesystem holding exactly one page.
-/

theorem normPath_dotslash (x : Str) : normPath (str "./" ++ x) = x := by
  have h : List.isPrefixOf (str "./") (str "./" ++ x) = true :=
    List.isPrefixOf_iff_prefix.mpr ⟨x, rfl⟩
  rw [normPath, if_pos h]
  rfl

theorem isfile_singleton (W c w2 : Str) :
    isfile ⟨[(W ++ str ".html", c)]⟩ (str "./" ++ w2 ++ str ".html") = (w2 == W) := by
  rw [isfile, fsRead, List.append_assoc, normPath_dotslash]
  by_cases h : w2 = W
  · subst h
    simp [List.lookup]
  · have h1 : (w2 ++ str ".html" == W ++ str ".html") = false :=
      beq_eq_false_iff_ne.mpr fun hc => h ((List.append_left_inj _).mp hc)
    have h2 : (w2 == W) = false := beq_eq_false_iff_ne.mpr h
    simp [List.lookup, h1, h2]

theorem afl_singleton_foldl (W c : Str) :
    ∀ (ws : List Str) (ln : Str),
      ws.foldl
        (fun ln w =>
          let w2 := word_cleanup w
          let filename := str "./" ++ w2 ++ str ".html"
          if isfile ⟨[(W ++ str ".html", c)]⟩ filename then pyReplace ln w2 (linkFor filename w2)
          else ln)
        ln =
      (fun t => pyReplace t W (linkFor (str "./" ++ W ++ str ".html") W))^[
        ws.countP (fun w => word_cleanup w == W)] ln := by
  intro ws
  induction ws with
  | nil => intro ln; rfl
  | cons w ws ih =>
    intro ln
    rw [List.foldl_cons, List.countP_cons]
    by_cases h : (word_cleanup w == W) = true
    · have he : word_cleanup w = W := beq_iff_eq.mp h
      rw [if_pos h]
      show List.foldl _ (if isfile ⟨[(W ++ str ".html", c)]⟩
          (str "./" ++ word_cleanup w ++ str ".html") = true then _ else _) ws = _
      rw [isfile_singleton, if_pos h, ih, he, Function.iterate_succ_apply]
    · rw [if_neg h, Nat.add_zero]
      show List.foldl _ (if isfile ⟨[(W ++ str ".html", c)]⟩
          (str "./" ++ word_cleanup w ++ str ".html") = true then _ else _) ws = _
      rw [isfile_singleton, if_neg (by simp [h]), ih]

theorem add_file_links_singleton (W c line : Str) :
    add_file_links ⟨[(W ++ str ".html", c)]⟩ line =
      (fun t => pyReplace t W (linkFor (str "./" ++ W ++ str ".html") W))^[
        (split_words line).countP (fun w => word_cleanup w == W)] line :=
  afl_singleton_foldl W c (split_words line) line

theorem pyReplace_iterate_creates {old new : Str} (hold : old ≠ []) (hsub : old <:+: new) :
    ∀ k t, old <:+: t → new <:+: (fun x => pyReplace x old new)^[k + 1] t := by
  intro k
  induction k with
  | zero =>
    intro t ht
    simpa using pyReplace_creates_new hold ht
  | succ n ih =>
    intro t ht
    rw [Function.iterate_succ_apply]
    exact ih _ (List.IsInfix.trans hsub (pyReplace_creates_new hold ht))

theorem add_file_links_no_match (fs : FS) (line : Str)
    (h : ∀ w ∈ split_words line,
      isfile fs (str "./" ++ word_cleanup w ++ str ".html") = false) :
    add_file_links fs line = line := by
  rw [add_file_links]
  have key : ∀ (ws : List Str) (ln : Str),
      (∀ w ∈ ws, isfile fs (str "./" ++ word_cleanup w ++ str ".html") = false) →
      ws.foldl
        (fun ln w =>
          let w2 := word_cleanup w
          let filename := str "./" ++ w2 ++ str ".html"
          if isfile fs filename then pyReplace ln w2 (linkFor filename w2) else ln)
        ln = ln := by
    intro ws
    induction ws with
    | nil => intro ln _; rfl
    | cons w ws ih =>
      intro ln hws
      rw [List.foldl_cons]
      show List.foldl _ (if isfile fs
          (str "./" ++ word_cleanup w ++ str ".html") = true then _ else _) ws = ln
      rw [hws w (List.mem_cons_self w ws), if_neg (by simp)]
      exact ih ln fun w2 hw2 => hws w2 (List.mem_cons_of_mem w hw2)
  exact key _ line h

/-!
Line classification facts.
-/

theorem dropWhile_append_singleton (p : Char → Bool) {c : Char} (hc : p c = false)
    (xs : Str) : List.dropWhile p (xs ++ [c]) = List.dropWhile p xs ++ [c] := by
  induction xs with
  | nil => simp [List.dropWhile_cons, hc]
  | cons x xs ih =>
    by_cases hx : p x
    · simp [List.dropWhile_cons, hx, ih]
    · simp [List.dropWhile_cons, hx]

theorem pyStripP_head {p : Char → Bool} {c : Char} (hc : p c = false) (t : Str) :
    ∃ r, pyStripP p (c :: t) = c :: r := by
  rw [pyStripP, pyLstripP, List.dropWhile_cons, if_neg (by simp [hc])]
  rw [pyRstripP, List.reverse_cons, dropWhile_append_singleton p hc, List.reverse_append]
  exact ⟨(List.dropWhile p t.reverse).reverse, rfl⟩

theorem is_blank_eq_false_of_comment {line : Str} (h : is_comment line = true) :
    is_blank line = false := by
  rw [is_comment] at h
  obtain ⟨t, ht⟩ := List.isPrefixOf_iff_prefix.mp h
  have hline : line = '/' :: '/' :: t := by rw [← ht]; rfl
  subst hline
  rw [is_blank]
  obtain ⟨r, hr⟩ := pyStripP_head (p := fun c => c == ' ' || c == '\t')
    (c := '/') (by decide) ('/' :: t)
  rw [hr]
  rw [beq_eq_false_iff_ne]
  intro hcon
  have h2 := congrArg (fun l => l.headD ' ') hcon
  simp [str] at h2

/-!
Facts about codeLoop needed for the trailing-blank-trim safety claim.
-/

theorem codeLoop_exit {line : Str} {rem : List Str} {block : List Str}
    (h : (!is_comment line && !is_eof line) = false) :
    codeLoop line rem block = (block, line, rem) := by
  cases rem with
  | nil => rw [codeLoop, if_neg (by simp [h])]
  | cons l rest => rw [codeLoop, if_neg (by simp [h])]

theorem codeLoop_fst_cons :
    ∀ (rem : List Str) (line : Str) (block : List Str),
      (!is_comment line && !is_eof line) = true →
      ∃ e, (codeLoop line rem block).1 = block ++ line :: e := by
  intro rem
  induction rem with
  | nil =>
    intro line block h
    rw [codeLoop, if_pos h]
    exact ⟨[], rfl⟩
  | cons l rest ih =>
    intro line block h
    rw [codeLoop, if_pos h]
    by_cases hl : (!is_comment l && !is_eof l) = true
    · obtain ⟨e, he⟩ := ih l (block ++ [line]) hl
      refine ⟨l :: e, ?_⟩
      rw [he, List.append_assoc]
      rfl
    · rw [codeLoop_exit (Bool.eq_false_iff.mpr hl)]
      exact ⟨[], rfl⟩

theorem trim_block_cons_ne_nil {line : Str} {e : List Str} (hb : is_blank line = false) :
    trim_block (line :: e) ≠ [] := by
  rw [trim_block]
  cases e with
  | nil =>
    have hg : ([line] : List Str).getLast? = some line := rfl
    rw [hg]
    show (if is_blank line = true then ([line] : List Str).dropLast else [line]) ≠ []
    rw [hb]
    simp
  | cons x xs =>
    cases hg : ((line :: x :: xs) : List Str).getLast? with
    | none => simp at hg
    | some last =>
      show (if is_blank last = true then (line :: x :: xs).dropLast
        else line :: x :: xs) ≠ []
      by_cases hbl : is_blank last = true
      · rw [if_pos hbl]
        simp [List.dropLast]
      · rw [if_neg hbl]
        simp

/-!
Facts about the first-paragraph pass needed for the metadata claim.
-/

theorem skipLoop_exit {line : Str} {rem : List Str}
    (h : ((is_header line || is_blank line) && !is_eof line) = false) :
    skipLoop line rem = (line, rem) := by
  cases rem with
  | nil => rw [skipLoop, if_neg (by simp [h])]
  | cons l rest => rw [skipLoop, if_neg (by simp [h])]

theorem skipLoop_chain :
    ∀ (hdr : List Str) (line : Str) (rest : List Str),
      (∀ l ∈ hdr, ((is_header l || is_blank l) && !is_eof l) = true) →
      ((is_header line || is_blank line) && !is_eof line) = false →
      skipLoop (readlineFrom (hdr ++ line :: rest)).1
        (readlineFrom (hdr ++ line :: rest)).2 = (line, rest) := by
  intro hdr
  induction hdr with
  | nil =>
    intro line rest _ hline
    exact skipLoop_exit hline
  | cons h t ih =>
    intro line rest hhdr hline
    show skipLoop h (t ++ line :: rest) = (line, rest)
    have hh : ((is_header h || is_blank h) && !is_eof h) = true :=
      hhdr h (List.mem_cons_self h t)
    have ht := ih line rest (fun l hl => hhdr l (List.mem_cons_of_mem h hl)) hline
    cases hc : t ++ line :: rest with
    | nil => exact absurd hc (by simp)
    | cons l r =>
      rw [hc] at ht
      rw [skipLoop, if_pos hh]
      exact ht

theorem paraLoop_exit {line : Str} {rem : List Str} {acc : Str}
    (h : (is_comment line && !is_blank line && !is_eof line) = false) :
    paraLoop line rem acc = (acc, line, rem) := by
  cases rem with
  | nil => rw [paraLoop, if_neg (by simp [h])]
  | cons l rest => rw [paraLoop, if_neg (by simp [h])]

/-!
Accumulator facts about the main render loop, and non-emptiness of render output.
-/

theorem foldl_append_exists (g : Str → Str) :
    ∀ (xs : List Str) (b : Str), ∃ t, xs.foldl (fun a l => a ++ g l) b = b ++ t := by
  intro xs
  induction xs with
  | nil => intro b; exact ⟨[], by simp⟩
  | cons x xs ih =>
    intro b
    obtain ⟨t, ht⟩ := ih (b ++ g x)
    exact ⟨g x ++ t, by rw [List.foldl_cons, ht, List.append_assoc]⟩

theorem process_comments_acc (md : Str → Str) (line : Str) (rem : List Str) (acc : Str) :
    ∃ v, (process_comments md line rem acc).1 = acc ++ v :=
  ⟨md (commentLoop line rem []).1 ++ str "\n\n", rfl⟩

theorem process_code_acc (fs : FS) (line : Str) (rem : List Str) (acc : Str) :
    ∃ v, (process_code fs line rem acc).1 = acc ++ v := by
  obtain ⟨u, hu⟩ := foldl_append_exists (add_file_links fs)
    (trim_block (codeLoop line rem []).1) (acc ++ str "<pre>\n")
  refine ⟨(str "<pre>\n" ++ u) ++ str "</pre>\n\n", ?_⟩
  show (trim_block (codeLoop line rem []).1).foldl _ (acc ++ str "<pre>\n") ++
    str "</pre>\n\n" = _
  rw [hu, List.append_assoc, List.append_assoc, List.append_assoc]

theorem mainLoop_succ (md : Str → Str) (fs : FS) (n : Nat) (line : Str)
    (rem : List Str) (acc : Str) :
    mainLoop md fs (n + 1) line rem acc =
      if is_eof line then acc
      else if is_comment line then
        mainLoop md fs n (process_comments md line rem acc).2.1
          (process_comments md line rem acc).2.2 (process_comments md line rem acc).1
      else if !is_blank line then
        mainLoop md fs n (process_code fs line rem acc).2.1
          (process_code fs line rem acc).2.2 (process_code fs line rem acc).1
      else
        match rem with
        | [] => mainLoop md fs n [] [] acc
        | l :: rest => mainLoop md fs n l rest acc := rfl

theorem mainLoop_acc (md : Str → Str) (fs : FS) :
    ∀ (fuel : Nat) (line : Str) (rem : List Str) (acc : Str),
      ∃ t, mainLoop md fs fuel line rem acc = acc ++ t := by
  intro fuel
  induction fuel with
  | zero => intro line rem acc; exact ⟨[], by simp [mainLoop]⟩
  | succ n ih =>
    intro line rem acc
    rw [mainLoop_succ]
    by_cases h1 : is_eof line = true
    · rw [if_pos h1]; exact ⟨[], by simp⟩
    · rw [if_neg h1]
      by_cases h2 : is_comment line = true
      · rw [if_pos h2]
        obtain ⟨v, hv⟩ := process_comments_acc md line rem acc
        obtain ⟨t, ht⟩ := ih (process_comments md line rem acc).2.1
          (process_comments md line rem acc).2.2 (process_comments md line rem acc).1
        exact ⟨v ++ t, by rw [ht, hv, List.append_assoc]⟩
      · rw [if_neg h2]
        by_cases h3 : (!is_blank line) = true
        · rw [if_pos h3]
          obtain ⟨v, hv⟩ := process_code_acc fs line rem acc
          obtain ⟨t, ht⟩ := ih (process_code fs line rem acc).2.1
            (process_code fs line rem acc).2.2 (process_code fs line rem acc).1
          exact ⟨v ++ t, by rw [ht, hv, List.append_assoc]⟩
        · rw [if_neg h3]
          cases rem with
          | nil => exact ih [] [] acc
          | cons l rest => exact ih l rest acc

theorem render_ne_nil (md : Str → Str) (fs : FS) (f d : Str) : render md fs f d ≠ [] := by
  rw [render]
  intro h
  rw [List.append_eq_nil] at h
  have : footerStr = [] := h.2
  exact absurd this (by decide)

/-!
Characterizations of stepFile, and path distinctness facts for the batch driver.
-/

theorem stepFile_skip {md : Str → Str} {fs : FS} {f D : Str}
    (h1 : is_verilog_filename f = true) (h2 : fsRead fs f = some D)
    (h3 : render md fs f D = (fsRead fs (output_filename f)).getD []) :
    stepFile md fs f = some (fs, []) := by
  have hbeq : (render md fs f D == (fsRead fs (output_filename f)).getD []) = true :=
    beq_iff_eq.mpr h3
  simp [stepFile, h1, h2, hbeq]

theorem stepFile_write {md : Str → Str} {fs : FS} {f D : Str}
    (h1 : is_verilog_filename f = true) (h2 : fsRead fs f = some D)
    (h3 : render md fs f D ≠ (fsRead fs (output_filename f)).getD []) :
    stepFile md fs f =
      some (fsWrite fs (output_filename f) (render md fs f D),
        [str "Updating " ++ output_filename f]) := by
  have hbeq : (render md fs f D == (fsRead fs (output_filename f)).getD []) = false :=
    beq_eq_false_iff_ne.mpr h3
  simp [stepFile, h1, h2, hbeq]

theorem stepFile_abort {md : Str → Str} {fs : FS} {f : Str}
    (h1 : is_verilog_filename f = true) (h2 : fsRead fs f = none) :
    stepFile md fs f = none := by
  simp [stepFile, h1, h2]

theorem stepFile_some_cases {md : Str → Str} {fs : FS} {f : Str} {fs2 : FS}
    {out : List Str} (h : stepFile md fs f = some (fs2, out)) :
    (fs2 = fs ∧ out = []) ∨
      ∃ o, fs2 = fsWrite fs (output_filename f) o ∧
        out = [str "Updating " ++ output_filename f] := by
  by_cases h1 : is_verilog_filename f = true
  · cases h2 : fsRead fs f with
    | none =>
      rw [stepFile_abort h1 h2] at h
      cases h
    | some D =>
      by_cases h3 : render md fs f D = (fsRead fs (output_filename f)).getD []
      · rw [stepFile_skip h1 h2 h3] at h
        injection h with h4
        injection h4 with h5 h6
        exact Or.inl ⟨h5.symm, h6.symm⟩
      · rw [stepFile_write h1 h2 h3] at h
        injection h with h4
        injection h4 with h5 h6
        exact Or.inr ⟨render md fs f D, h5.symm, h6.symm⟩
  · rw [stepFile, if_pos (by simp [h1])] at h
    injection h with h4
    injection h4 with h5 h6
    exact Or.inl ⟨h5.symm, h6.symm⟩

theorem getLast?_of_verilog {b : Str} (h : is_verilog_filename b = true) :
    b.getLast? = some 'v' ∨ b.getLast? = some 'h' := by
  rw [is_verilog_filename] at h
  rcases (Bool.or_eq_true _ _).mp h with h2 | h3
  · left
    have he : lastN 2 b = str ".v" := beq_iff_eq.mp h2
    have hsplit : b.take (b.length - 2) ++ lastN 2 b = b := List.take_append_drop _ b
    rw [he] at hsplit
    rw [← hsplit, List.getLast?_append_of_ne_nil _ (by simp [str])]
    rfl
  · right
    have he : lastN 3 b = str ".vh" := beq_iff_eq.mp h3
    have hsplit : b.take (b.length - 3) ++ lastN 3 b = b := List.take_append_drop _ b
    rw [he] at hsplit
    rw [← hsplit, List.getLast?_append_of_ne_nil _ (by simp [str])]
    rfl

theorem getLast?_output (a : Str) : (output_filename a).getLast? = some 'l' := by
  rw [output_filename, List.getLast?_append_of_ne_nil _ (by simp [str])]
  rfl

theorem getLast?_normPath {p : Str} (hne : p ≠ str "./") :
    (normPath p).getLast? = p.getLast? := by
  by_cases h : List.isPrefixOf (str "./") p = true
  · obtain ⟨t, ht⟩ := List.isPrefixOf_iff_prefix.mp h
    cases t with
    | nil => exact absurd (by rw [← ht]; simp) hne
    | cons x xs =>
      rw [← ht, normPath_dotslash]
      rw [List.getLast?_append_of_ne_nil _ (by simp)]
  · rw [normPath, if_neg h]

theorem normPath_verilog_ne_output {a b : Str} (hb : is_verilog_filename b = true) :
    normPath b ≠ normPath (output_filename a) := by
  intro hcon
  have hb2 : b ≠ str "./" := by
    intro he
    rw [he] at hb
    exact absurd hb (by decide)
  have ho2 : output_filename a ≠ str "./" := by
    intro he
    have := getLast?_output a
    rw [he] at this
    exact absurd this (by decide)
  have h1 : (normPath b).getLast? = b.getLast? := getLast?_normPath hb2
  have h2 : (normPath (output_filename a)).getLast? = some 'l' := by
    rw [getLast?_normPath ho2, getLast?_output]
  rw [hcon, h2] at h1
  rcases getLast?_of_verilog hb with h3 | h3
  · rw [h3] at h1
    injection h1 with h4
    cases h4
  · rw [h3] at h1
    injection h1 with h4
    cases h4

theorem fsRead_fsWrite_of_ne {fs : FS} {p q v : Str} (h : normPath q ≠ normPath p) :
    fsRead (fsWrite fs p v) q = fsRead fs q := by
  show List.lookup (normPath q) ((normPath p, v) :: fs.files) = _
  rw [List.lookup, beq_eq_false_iff_ne.mpr h]
  rfl

theorem fsRead_after_stepFile_none {md : Str → Str} {fs fs2 : FS} {out : List Str}
    {a b : Str} (hstep : stepFile md fs a = some (fs2, out))
    (hb : is_verilog_filename b = true) (hread : fsRead fs b = none) :
    fsRead fs2 b = none := by
  rcases stepFile_some_cases hstep with ⟨hfs, _⟩ | ⟨o, hfs, _⟩
  · rw [hfs]
    exact hread
  · rw [hfs, fsRead_fsWrite_of_ne (normPath_verilog_ne_output hb)]
    exact hread

theorem containsSub_iff (pat t : Str) : containsSub pat t = true ↔ pat <:+: t := by
  induction t with
  | nil =>
    rw [containsSub]
    constructor
    · intro h
      rw [List.isEmpty_iff] at h
      rw [h]
    · intro h
      rw [List.isEmpty_iff]
      exact List.eq_nil_of_infix_nil h
  | cons c cs ih =>
    rw [containsSub]
    by_cases hp : pat.isPrefixOf (c :: cs) = true
    · rw [if_pos hp]
      refine ⟨fun _ => ?_, fun _ => rfl⟩
      exact List.IsPrefix.isInfix (List.isPrefixOf_iff_prefix.mp hp)
    · rw [if_neg hp, ih]
      constructor
      · intro h
        exact List.IsInfix.trans h (List.infix_cons (List.infix_refl cs))
      · intro h
        exact infix_of_cons_of_not_prefix h
          (fun hc => hp (List.isPrefixOf_iff_prefix.mpr hc))

/-!
Claim theorems.
-/

/-- C3, counterexample: the line consisting of two spaces, the marker "//" and text is
classified Code by the code, not Comment, although the spec-side test that ignores
leading whitespace accepts it. -/
theorem spec_C3_counterexample :
    comment_spec_leadingWs (str "  // x\n") = true ∧
      is_comment (str "  // x\n") = false ∧
      classify (str "  // x\n") = LineKind.code := by
  decide

/-- C3, amended: a line is classified Comment iff it starts with "//" with no
allowance for leading whitespace; Blank iff stripping spaces and tabs from both ends
leaves exactly a line terminator; otherwise Code. -/
theorem spec_C3_amended (line : Str) :
    (classify line = LineKind.comment ↔ str "//" <+: line) ∧
      (classify line = LineKind.blank ↔
        pyStripP (fun c => c == ' ' || c == '\t') line = str "\n") ∧
      (classify line = LineKind.code ↔
        (¬ str "//" <+: line ∧
          pyStripP (fun c => c == ' ' || c == '\t') line ≠ str "\n")) := by
  by_cases hc : is_comment line = true
  · have hpre : str "//" <+: line := List.isPrefixOf_iff_prefix.mp hc
    have hb : is_blank line = false := is_blank_eq_false_of_comment hc
    have hstrip : pyStripP (fun c => c == ' ' || c == '\t') line ≠ str "\n" := by
      intro hcon
      rw [is_blank, hcon] at hb
      simp at hb
    rw [classify, if_pos hc]
    exact ⟨⟨fun _ => hpre, fun _ => rfl⟩,
      ⟨fun h => absurd h (by decide), fun h => absurd h hstrip⟩,
      ⟨fun h => absurd h (by decide), fun h => absurd hpre h.1⟩⟩
  · have hpre : ¬ str "//" <+: line := fun h => hc (List.isPrefixOf_iff_prefix.mpr h)
    by_cases hb : is_blank line = true
    · have hstrip : pyStripP (fun c => c == ' ' || c == '\t') line = str "\n" := by
        rw [is_blank] at hb
        exact beq_iff_eq.mp hb
      rw [classify, if_neg hc, if_pos hb]
      exact ⟨⟨fun h => absurd h (by decide), fun h => absurd h hpre⟩,
        ⟨fun _ => hstrip, fun _ => rfl⟩,
        ⟨fun h => absurd h (by decide), fun h => absurd hstrip h.2⟩⟩
    · have hstrip : pyStripP (fun c => c == ' ' || c == '\t') line ≠ str "\n" := by
        intro hcon
        exact hb (by rw [is_blank]; exact beq_iff_eq.mpr hcon)
      rw [classify, if_neg hc, if_neg hb]
      exact ⟨⟨fun h => absurd h (by decide), fun h => absurd h hpre⟩,
        ⟨fun h => absurd h (by decide), fun h => absurd h hstrip⟩,
        ⟨fun _ => ⟨hpre, hstrip⟩, fun _ => rfl⟩⟩

/-- C4, counterexample: "adder.v.v" is accepted as a Verilog filename, yet its output
path is "adder.html", not "adder.v.html": interior occurrences of ".v" are removed,
not preserved. -/
theorem spec_C4_counterexample :
    is_verilog_filename (str "adder.v.v") = true ∧
      output_filename (str "adder.v.v") = str "adder.html" ∧
      output_filename (str "adder.v.v") ≠ str "adder.v.html" := by
  decide

/-- C4, amended: for filenames whose stem contains no dot, the output path is the stem
with ".html" appended, for both recognized extensions; in general the code removes
every occurrence of ".vh" and then ".v" anywhere in the name. -/
theorem spec_C4_amended (stem : Str) (hd : '.' ∉ stem) :
    output_filename (stem ++ str ".v") = stem ++ str ".html" ∧
      output_filename (stem ++ str ".vh") = stem ++ str ".html" := by
  constructor
  · rw [output_filename, base_filename_dotv hd]
  · rw [output_filename, base_filename_dotvh hd]

/-- C4, witness: the amended claim evaluated at the stem "adder". -/
theorem spec_C4_witness :
    output_filename (str "adder" ++ str ".v") = str "adder" ++ str ".html" ∧
      output_filename (str "adder" ++ str ".vh") = str "adder" ++ str ".html" :=
  spec_C4_amended (str "adder") (by decide)

/-- C6: every invocation of the code-segment pass reachable from the main driver
starts at a non-comment, non-blank, non-EOF line, so the gathered code block is
non-empty when the trailing-blank trim indexes its last element, and the trimmed
block is also non-empty: the degenerate empty segment never arises and the trim
never indexes an empty collection. -/
theorem spec_C6 (line : Str) (rem : List Str)
    (h1 : is_comment line = false) (h2 : is_blank line = false)
    (h3 : is_eof line = false) :
    (codeLoop line rem []).1 ≠ [] ∧ trim_block ((codeLoop line rem []).1) ≠ [] := by
  have hcond : (!is_comment line && !is_eof line) = true := by simp [h1, h3]
  obtain ⟨e, he⟩ := codeLoop_fst_cons rem line [] hcond
  rw [he]
  simp only [List.nil_append]
  exact ⟨by simp, trim_block_cons_ne_nil h2⟩

/-- C6, witness: the safety property evaluated at a concrete code line followed by a
comment line. -/
theorem spec_C6_witness :
    (codeLoop (str "x\n") [str "// c\n"] []).1 ≠ [] ∧
      trim_block ((codeLoop (str "x\n") [str "// c\n"] []).1) ≠ [] :=
  spec_C6 (str "x\n") [str "// c\n"] (by decide) (by decide) (by decide)

/-- C7, counterexample: with both adder.html and html.html present, processing the
token "html" rewrites the inside of the previously inserted adder hyperlink, so the
rendered line no longer contains an intact hyperlink to adder.html; and with only
add.html present, the token "adder" does not appear unchanged (its prefix is turned
into link markup), refuting the unconditional claim. -/
theorem spec_C7_counterexample :
    (¬ linkFor (str "./adder.html") (str "adder") <:+:
        add_file_links ⟨[(str "adder.html", []), (str "html.html", [])]⟩
          (str "adder html\n")) ∧
      (¬ str "adder" <:+:
        add_file_links ⟨[(str "add.html", [])]⟩ (str "adder add\n")) := by
  decide

/-- C7, amended: when adder.html is the only page in the output directory, a code line
with whitespace-delimited token "adder" renders with a hyperlink to "./adder.html"
whose visible text is "adder"; and when no token of the line names an existing page,
the line is rendered completely unchanged. Replacements for other existing pages can
rewrite the token or the inserted markup. -/
theorem spec_C7_amended :
    (∀ c line : Str, str "adder" ∈ split_words line →
        linkFor (str "./adder.html") (str "adder") <:+:
          add_file_links ⟨[(str "adder.html", c)]⟩ line) ∧
      (∀ (fs : FS) (line : Str),
        (∀ w ∈ split_words line,
          isfile fs (str "./" ++ word_cleanup w ++ str ".html") = false) →
        add_file_links fs line = line) := by
  constructor
  · intro c line hmem
    have h := add_file_links_singleton (str "adder") c line
    rw [show str "adder" ++ str ".html" = str "adder.html" from rfl,
      show str "./" ++ str "adder" ++ str ".html" = str "./adder.html" from rfl] at h
    rw [h]
    have hpos : 0 < (split_words line).countP (fun w => word_cleanup w == str "adder") :=
      List.countP_pos_iff.mpr ⟨str "adder", hmem, by decide⟩
    obtain ⟨m, hm⟩ := Nat.exists_eq_add_of_lt hpos
    rw [hm, Nat.zero_add]
    exact pyReplace_iterate_creates (by decide) (by decide) m line
      (sub_of_mem_split_words hmem)
  · intro fs line h
    exact add_file_links_no_match fs line h

/-- C7, witness: the amended claim at a concrete line, once with adder.html the only
existing page and once with an empty output directory. -/
theorem spec_C7_witness :
    linkFor (str "./adder.html") (str "adder") <:+:
        add_file_links ⟨[(str "adder.html", [])]⟩ (str "wire adder\n") ∧
      add_file_links ⟨[]⟩ (str "wire adder\n") = str "wire adder\n" :=
  ⟨spec_C7_amended.1 [] (str "wire adder\n") (by decide),
    spec_C7_amended.2 ⟨[]⟩ (str "wire adder\n") (by decide)⟩

/-- C10: over a filesystem holding exactly the page W.html, add_file_links equals the
whole-line Python replace of the cleaned token W by the hyperlink markup, applied once
per matching whitespace token: the substitution is a global substring replacement,
hitting occurrences inside longer words and inside previously inserted markup, as the
concrete second component shows for W set to adder. -/
theorem spec_C10 :
    (∀ W c line : Str,
        add_file_links ⟨[(W ++ str ".html", c)]⟩ line =
          (fun t => pyReplace t W (linkFor (str "./" ++ W ++ str ".html") W))^[
            (split_words line).countP (fun w => word_cleanup w == W)] line) ∧
      add_file_links ⟨[(str "adder.html", [])]⟩ (str "xadderx adder\n") =
        str "x<a href=\"./adder.html\">adder</a>x <a href=\"./adder.html\">adder</a>\n" := by
  exact ⟨add_file_links_singleton, by decide⟩

/-- C8: for any input whose leading lines are header comments or blanks, followed by
the comment block "// Adds two numbers." / "// See below." and a blank line, the
extracted meta-description is exactly "Adds two numbers. See below." (markers
stripped, newlines removed, whitespace trimmed), and the pass hands back the full
line list: the document is rewound and segmentation restarts from the top. -/
theorem spec_C8 (hdr rest : List Str)
    (hhdr : ∀ l ∈ hdr, ((is_header l || is_blank l) && !is_eof l) = true) :
    first_paragraph_of
        (hdr ++ str "// Adds two numbers.\n" :: str "// See below.\n" :: str "\n" :: rest) =
      (str "\n",
        hdr ++ str "// Adds two numbers.\n" :: str "// See below.\n" :: str "\n" :: rest,
        str "Adds two numbers. See below.") := by
  have hskip := skipLoop_chain hdr (str "// Adds two numbers.\n")
    (str "// See below.\n" :: str "\n" :: rest) hhdr (by decide)
  simp only [first_paragraph_of, process_first_paragraph, hskip]
  rw [paraLoop, if_pos (by decide)]
  rw [paraLoop, if_pos (by decide)]
  rw [paraLoop_exit (by decide)]
  simp only [Prod.mk.injEq]
  refine ⟨?_, ?_, ?_⟩ <;> trivial

/-- C8, witness: the metadata property evaluated at a concrete document with one
header line, one blank line, and a code line after the paragraph. -/
theorem spec_C8_witness :
    first_paragraph_of
        ([str "//# T\n", str "\n"] ++
          str "// Adds two numbers.\n" :: str "// See below.\n" :: str "\n" :: [str "x\n"]) =
      (str "\n",
        [str "//# T\n", str "\n"] ++
          str "// Adds two numbers.\n" :: str "// See below.\n" :: str "\n" :: [str "x\n"],
        str "Adds two numbers. See below.") :=
  spec_C8 [str "//# T\n", str "\n"] [str "x\n"] (by decide)

/-- C9: a missing pre-existing output file is not an error: the comparison baseline
is the empty string, the conversion completes, the fresh output is written, one
update line is printed, and the batch finishes with "Done." and exit code 0. -/
theorem spec_C9 (md : Str → Str) (fs : FS) (f D : Str)
    (h1 : is_verilog_filename f = true) (h2 : fsRead fs f = some D)
    (h3 : fsRead fs (output_filename f) = none) :
    runBatch md fs [f] =
      ⟨fsWrite fs (output_filename f) (render md fs f D),
        [str "Updating " ++ output_filename f, str "Done."], 0⟩ := by
  have hne : render md fs f D ≠ (fsRead fs (output_filename f)).getD [] := by
    rw [h3]
    exact render_ne_nil md fs f D
  simp [runBatch, runBatchAux, stepFile_write h1 h2 hne]

/-- C9, witness: conversion of m.v with no pre-existing m.html. -/
theorem spec_C9_witness :
    runBatch id ⟨[(str "m.v", str "x\n")]⟩ [str "m.v"] =
      ⟨fsWrite ⟨[(str "m.v", str "x\n")]⟩ (output_filename (str "m.v"))
          (render id ⟨[(str "m.v", str "x\n")]⟩ (str "m.v") (str "x\n")),
        [str "Updating " ++ output_filename (str "m.v"), str "Done."], 0⟩ :=
  spec_C9 id ⟨[(str "m.v", str "x\n")]⟩ (str "m.v") (str "x\n")
    (by decide) (by decide) (by decide)

/-- C2, counterexample: a second run on unchanged top.v performs no write but prints
only "Done." with no skipped report (the Skipping print is commented out in the
code); and a second run on unchanged adder.v writes again, because the first run
created adder.html, which now turns the token adder into a link and changes the
rendered bytes. -/
theorem spec_C2_counterexample :
    (runBatch id (runBatch id ⟨[(str "top.v", str "wire w;\n")]⟩ [str "top.v"]).fs
        [str "top.v"]).printed = [str "Done."] ∧
      (runBatch id (runBatch id ⟨[(str "adder.v", str "module adder\n")]⟩
          [str "adder.v"]).fs [str "adder.v"]).printed =
        [str "Updating adder.html", str "Done."] := by
  exact ⟨rfl, rfl⟩

/-- C2, amended: when re-rendering the unchanged input under the post-run filesystem
reproduces the stored output bytes (as holds when no code token names a newly created
page), the second run performs no write, leaves the filesystem unchanged, and prints
only the completion marker: no skipped status line is emitted. -/
theorem spec_C2_amended (md : Str → Str) (fs : FS) (f D : Str)
    (h1 : is_verilog_filename f = true) (h2 : fsRead fs f = some D)
    (h3 : render md fs f D = (fsRead fs (output_filename f)).getD []) :
    runBatch md fs [f] = ⟨fs, [str "Done."], 0⟩ := by
  simp [runBatch, runBatchAux, stepFile_skip h1 h2 h3]

/-- C2, witness: the amended claim at the filesystem produced by a first run on
top.v, whose second run is a silent skip. -/
theorem spec_C2_witness :
    runBatch id (runBatch id ⟨[(str "top.v", str "wire w;\n")]⟩ [str "top.v"]).fs
        [str "top.v"] =
      ⟨(runBatch id ⟨[(str "top.v", str "wire w;\n")]⟩ [str "top.v"]).fs,
        [str "Done."], 0⟩ :=
  spec_C2_amended id (runBatch id ⟨[(str "top.v", str "wire w;\n")]⟩ [str "top.v"]).fs
    (str "top.v") (str "wire w;\n") (by decide) (by decide) (by decide)

/-- C1, counterexample: on inputs a.v, b.v, c.v where only a.v and c.v exist, the
batch writes a.html, then aborts at b.v with exit code 1: c.html is never written,
no per-file error line is printed, and no completion marker appears. -/
theorem spec_C1_counterexample :
    (runBatch id ⟨[(str "a.v", str "x\n"), (str "c.v", str "y\n")]⟩
        [str "a.v", str "b.v", str "c.v"]).exitCode = 1 ∧
      fsRead (runBatch id ⟨[(str "a.v", str "x\n"), (str "c.v", str "y\n")]⟩
          [str "a.v", str "b.v", str "c.v"]).fs (str "c.html") = none ∧
      (runBatch id ⟨[(str "a.v", str "x\n"), (str "c.v", str "y\n")]⟩
          [str "a.v", str "b.v", str "c.v"]).printed = [str "Updating a.html"] := by
  exact ⟨rfl, rfl, rfl⟩

/-- C1, amended: when the second of three input paths is a recognized source name
that cannot be read, the driver processes the first file normally, then the uncaught
read error aborts the batch with exit code 1: the third file is never attempted, the
filesystem and printed lines are exactly those of the first file's processing, and no
completion marker is printed. -/
theorem spec_C1_amended (md : Str → Str) (fs fs2 : FS) (a b c : Str) (out : List Str)
    (hb : is_verilog_filename b = true) (hread : fsRead fs b = none)
    (hstep : stepFile md fs a = some (fs2, out)) :
    runBatch md fs [a, b, c] = ⟨fs2, out, 1⟩ ∧ str "Done." ∉ out := by
  constructor
  · have habort : stepFile md fs2 b = none :=
      stepFile_abort hb (fsRead_after_stepFile_none hstep hb hread)
    simp only [runBatch, runBatchAux, hstep, habort, List.nil_append]
  · rcases stepFile_some_cases hstep with ⟨_, ho⟩ | ⟨o, _, ho⟩
    · rw [ho]
      simp
    · rw [ho]
      intro hmem
      have he : str "Done." = str "Updating " ++ output_filename a :=
        List.mem_singleton.mp hmem
      have hD : str "Done." = 'D' :: str "one." := rfl
      have hU : str "Updating " ++ output_filename a =
          'U' :: (str "pdating " ++ output_filename a) := rfl
      rw [hD, hU] at he
      injection he with h1 _
      exact absurd h1 (by decide)

/-- C1, witness: the amended claim at the concrete three-path batch with b.v
missing. -/
theorem spec_C1_witness :
    runBatch id ⟨[(str "a.v", str "x\n"), (str "c.v", str "y\n")]⟩
        [str "a.v", str "b.v", str "c.v"] =
      ⟨fsWrite ⟨[(str "a.v", str "x\n"), (str "c.v", str "y\n")]⟩
          (output_filename (str "a.v"))
          (render id ⟨[(str "a.v", str "x\n"), (str "c.v", str "y\n")]⟩
            (str "a.v") (str "x\n")),
        [str "Updating " ++ output_filename (str "a.v")], 1⟩ ∧
      str "Done." ∉ [str "Updating " ++ output_filename (str "a.v")] :=
  spec_C1_amended id ⟨[(str "a.v", str "x\n"), (str "c.v", str "y\n")]⟩
    (fsWrite ⟨[(str "a.v", str "x\n"), (str "c.v", str "y\n")]⟩
      (output_filename (str "a.v"))
      (render id ⟨[(str "a.v", str "x\n"), (str "c.v", str "y\n")]⟩
        (str "a.v") (str "x\n")))
    (str "a.v") (str "b.v") (str "c.v")
    [str "Updating " ++ output_filename (str "a.v")]
    (by decide) (by decide) (by decide)

/-- C5, counterexample: for the document consisting of a code line, a blank line and
a comment line, the rendered page does not contain the code block the claim demands
(the line once, with no trailing blank); it contains the line twice, because the
metadata pass rewinds the file but returns the already-consumed first line, which
the main loop then processes again. -/
theorem spec_C5_counterexample :
    ¬ str "<pre>\ncode_line\n</pre>" <:+:
        render id ⟨[]⟩ (str "f.v") (str "code_line\n\n// comment\n") ∧
      str "<pre>\ncode_line\ncode_line\n</pre>" <:+:
        render id ⟨[]⟩ (str "f.v") (str "code_line\n\n// comment\n") := by
  have hneg : containsSub (str "<pre>\ncode_line\n</pre>")
      (render id ⟨[]⟩ (str "f.v") (str "code_line\n\n// comment\n")) = false := rfl
  have hpos : containsSub (str "<pre>\ncode_line\ncode_line\n</pre>")
      (render id ⟨[]⟩ (str "f.v") (str "code_line\n\n// comment\n")) = true := rfl
  constructor
  · intro hcon
    have h := (containsSub_iff _ _).mpr hcon
    rw [hneg] at h
    cases h
  · exact (containsSub_iff _ _).mp hpos

/-- C5, amended: for the document consisting of the code line, a blank line and a
comment line, under any Markdown transform the rendered page is the concrete prefix
c5_page_head (header plus the code block), then the rendered comment segment, then the
footer; the code block contains the physical line code_line twice and the trailing
blank line is trimmed, so no blank line precedes the closing pre tag. -/
theorem spec_C5_amended (md : Str → Str) :
    render md ⟨[]⟩ (str "f.v") (str "code_line\n\n// comment\n") =
      (c5_page_head ++ (md (str " comment\n") ++ str "\n\n")) ++ footerStr ∧
      str "<pre>\ncode_line\ncode_line\n</pre>\n\n" <:+: c5_page_head ∧
      ¬ str "\n\n</pre>" <:+: c5_page_head := by
  exact ⟨rfl, by decide, by decide⟩

end V2H
